import Mathlib

/-!
# Verification of the contextual-loss module of traiNNer-redux

This file embeds the contextual-loss subsystem of
`src/traiNNer/losses/basic_loss.py` (class `ContextualLoss` and the helper
`alt_layers_names`) as Lean definitions over real-valued tensors, and proves
or refutes the frozen claims about it.

Modelling conventions:

* A feature map of shape `(N, C, H, W)` is a function
  `Fin N → Fin C → Fin H → Fin W → ℝ`; a distance/similarity tensor of shape
  `(N, H, W, H*W)` is `Fin N → Fin H → Fin W → Fin (H*W) → ℝ`.
* `view(N, C, -1)` flattening is the index bijection `(h, w) ↦ h*W + w`
  (`fidx`, `unflat_h`, `unflat_w`).
* Floating point is modelled by `ℝ`; `torch.clamp(x, 0)` is `max x 0`,
  `F.normalize`'s denominator is `max ‖v‖ 1e-12`, `torch.exp`/`torch.log`
  are `Real.exp`/`Real.log`.
* The NaN/Inf guard of `calculate_CX_Loss` is modelled separately
  (`cx_checks_raise`) over an abstract entry type equipped with `isnan`/`isinf`
  predicates, because `ℝ` has no NaN or Inf; only the guard's logic — not the
  arithmetic — is modelled there, exactly as written in the source
  (`sum(isnan(x)) == numel(x)`, etc.).
* `torch.randperm` inside `_random_sampling` is an external random source;
  the generated index set is passed explicitly as a function `Fin m → Fin S`
  (the source's `view(1,1,-1).expand(N,C,-1)` makes the index independent of
  the batch and channel coordinates).
-/

open Finset

noncomputable section

/-- A feature map of shape `(N, C, H, W)`. -/
abbrev Feat (N C H W : ℕ) : Type := Fin N → Fin C → Fin H → Fin W → ℝ

/-- A pairwise distance (or similarity) tensor of shape `(N, H, W, H*W)`:
for each batch element and query position `(h, w)`, a value against every
flattened target position. -/
abbrev DistT (N H W : ℕ) : Type := Fin N → Fin H → Fin W → Fin (H * W) → ℝ

variable {N C H W : ℕ}

/-- Row-major flattening `(h, w) ↦ h*W + w`, the index map of `view(N, C, -1)`. -/
def fidx (h : Fin H) (w : Fin W) : Fin (H * W) :=
  ⟨h.val * W + w.val, by
    have h1 : h.val + 1 ≤ H := h.isLt
    have h2 : w.val < W := w.isLt
    calc h.val * W + w.val < h.val * W + W := by omega
    _ = (h.val + 1) * W := by ring
    _ ≤ H * W := Nat.mul_le_mul_right W h1⟩

/-- Height coordinate of a flattened spatial index. -/
def unflat_h (s : Fin (H * W)) : Fin H :=
  ⟨s.val / W, by
    have hs := s.isLt
    have hW : 0 < W := by
      rcases Nat.eq_zero_or_pos W with h | h
      · subst h; simp at hs
      · exact h
    exact (Nat.div_lt_iff_lt_mul hW).mpr hs⟩

/-- Width coordinate of a flattened spatial index. -/
def unflat_w (s : Fin (H * W)) : Fin W :=
  ⟨s.val % W, by
    have hs := s.isLt
    have hW : 0 < W := by
      rcases Nat.eq_zero_or_pos W with h | h
      · subst h; simp at hs
      · exact h
    exact Nat.mod_lt _ hW⟩

/-- `X.view(N, C, -1)` read at a flattened spatial position. -/
def Iv (X : Feat N C H W) (n : Fin N) (c : Fin C) (s : Fin (H * W)) : ℝ :=
  X n c (unflat_h s) (unflat_w s)

/-- `ContextualLoss._create_using_L2`: squared-Euclidean pairwise distance
`|a|² + |b|² − 2·a·b` per channel-vector pair, clamped at 0
(`torch.clamp(raw_distance, 0.0)`). -/
def create_using_L2 (I T : Feat N C H W) : DistT N H W :=
  fun n h w s2 =>
    max ((∑ c, Iv I n c (fidx h w) ^ 2) + (∑ c, Iv T n c s2 ^ 2)
      - 2 * ∑ c, Iv I n c (fidx h w) * Iv T n c s2) 0

/-- `ContextualLoss._create_using_L1`: sum over channels of absolute
differences between every pair of spatial positions. -/
def create_using_L1 (I T : Feat N C H W) : DistT N H W :=
  fun n h w s2 => ∑ c, |Iv I n c (fidx h w) - Iv T n c s2|

/-- `ContextualLoss._create_using_dotP`: mean-shift both inputs by the
channel-wise mean of `T` taken over dims `(0, 2, 3)` (batch and spatial),
L2-normalize along the channel axis (`F.normalize`, denominator
`max ‖v‖ 1e-12`), take pairwise channel dot products, and map to a distance
by `(1 − cos)/2` clamped at 0. -/
def create_using_dotP (I T : Feat N C H W) : DistT N H W :=
  let mean_T : Fin C → ℝ :=
    fun c => (∑ n, ∑ h, ∑ w, T n c h w) / ((N * H * W : ℕ) : ℝ)
  let Ic : Feat N C H W := fun n c h w => I n c h w - mean_T c
  let Tc : Feat N C H W := fun n c h w => T n c h w - mean_T c
  let In : Feat N C H W :=
    fun n c h w => Ic n c h w / max (Real.sqrt (∑ c', Ic n c' h w ^ 2)) 1e-12
  let Tn : Feat N C H W :=
    fun n c h w => Tc n c h w / max (Real.sqrt (∑ c', Tc n c' h w ^ 2)) 1e-12
  fun n h w p => max ((1 - ∑ c, In n c h w * Iv Tn n c p) / 2) 0

instance instNeZeroMulOfNeZero {m n : ℕ} [NeZero m] [NeZero n] : NeZero (m * n) :=
  ⟨Nat.mul_ne_zero (NeZero.ne m) (NeZero.ne n)⟩

instance instNonemptyFinOfNeZero {n : ℕ} [NeZero n] : Nonempty (Fin n) :=
  ⟨⟨0, Nat.pos_of_ne_zero (NeZero.ne n)⟩⟩

/-- Maximum of a nonempty finite family, `torch.max(·, dim)[0]` on one axis. -/
def finMax {n : ℕ} [NeZero n] (f : Fin n → ℝ) : ℝ :=
  Finset.univ.sup' Finset.univ_nonempty f

/-- Minimum of a nonempty finite family, `torch.min(·, dim)[0]` on one axis. -/
def finMin {n : ℕ} [NeZero n] (f : Fin n → ℝ) : ℝ :=
  Finset.univ.inf' Finset.univ_nonempty f

/-- `torch.min(raw_distance, dim=-1, keepdim=True)[0]`: the minimum of the
row of a distance tensor at a fixed `(n, h, w)`. -/
def rowMin [NeZero H] [NeZero W] (d : DistT N H W) (n : Fin N) (h : Fin H)
    (w : Fin W) : ℝ :=
  finMin (fun s => d n h w s)

/-- `ContextualLoss._calculate_relative_distance`: divide each entry of a row
by the row minimum plus `epsilon = 1e-5` (Eq. 2 of the paper). -/
def calculate_relative_distance [NeZero H] [NeZero W] (raw : DistT N H W) :
    DistT N H W :=
  fun n h w s => raw n h w s / (rowMin raw n h w + 1e-5)

/-- Eq. (3): `torch.exp((b - dist_tilde) / band_width)`. -/
def exp_distance (b band_width : ℝ) (d : DistT N H W) : DistT N H W :=
  fun n h w s => Real.exp ((b - d n h w s) / band_width)

/-- Eq. (4): row-normalization
`exp_distance / torch.sum(exp_distance, dim=-1, keepdim=True)`. -/
def contextual_sim (e : DistT N H W) : DistT N H W :=
  fun n h w s => e n h w s / ∑ s', e n h w s'

/-- The distance metric selected by the `distance_type` constructor argument. -/
inductive DistType : Type
  | cosine : DistType
  | l1 : DistType
  | l2 : DistType

/-- The configuration fields of `ContextualLoss` that enter the loss
computation itself. -/
structure CXConfig : Type where
  loss_weight : ℝ
  distanceType : DistType
  b : ℝ
  band_width : ℝ

/-- The `if self.distanceType == 'l1' / 'l2' / else cosine` dispatch shared by
`calculate_CX_Loss` and `bilateral_CX_Loss`. -/
def rawDist (cfg : CXConfig) (I T : Feat N C H W) : DistT N H W :=
  match cfg.distanceType with
  | DistType.l1 => create_using_L1 I T
  | DistType.l2 => create_using_L2 I T
  | DistType.cosine => create_using_dotP I T

/-- `ContextualLoss.calculate_CX_Loss` (regular mode), numerics only (the
NaN/Inf guard is modelled separately by `cx_checks_raise`): raw distance →
relative distance → exponential similarity → row-normalized similarity →
`torch.max` over dim 1 (height) then dim 1 again (width) → mean over the
target-position axis → mean over batch of `-log` → times `loss_weight`. -/
def calculate_CX_Loss [NeZero H] [NeZero W] (cfg : CXConfig)
    (I T : Feat N C H W) : ℝ :=
  let raw_distance := rawDist cfg I T
  let relative_distance := calculate_relative_distance raw_distance
  let exp_dist := exp_distance cfg.b cfg.band_width relative_distance
  let ctx_sim := contextual_sim exp_dist
  let max_gt_sim : Fin N → Fin (H * W) → ℝ :=
    fun n s => finMax (fun w => finMax (fun h => ctx_sim n h w s))
  let CS : Fin N → ℝ := fun n => (∑ s, max_gt_sim n s) / ((H * W : ℕ) : ℝ)
  ((∑ n, -Real.log (CS n)) / ((N : ℕ) : ℝ)) * cfg.loss_weight

/-- `ContextualLoss.symetric_CX_Loss`:
`(calculate_CX_Loss(T, I) + calculate_CX_Loss(I, T)) / 2`, then
multiplied (again) by `loss_weight`. -/
def symetric_CX_Loss [NeZero H] [NeZero W] (cfg : CXConfig)
    (I T : Feat N C H W) : ℝ :=
  ((calculate_CX_Loss cfg T I + calculate_CX_Loss cfg I T) / 2) *
    cfg.loss_weight

/-- `compute_meshgrid` inside `bilateral_CX_Loss`: channel 0 holds
`row/(H+1)`, channel 1 holds `col/(W+1)`, identically across the batch. -/
def compute_meshgrid (N H W : ℕ) : Feat N 2 H W :=
  fun _ c h w =>
    if c.val = 0 then (h.val : ℝ) / ((H : ℝ) + 1)
    else (w.val : ℝ) / ((W : ℝ) + 1)

/-- `ContextualLoss.bilateral_CX_Loss`: spatial similarity from the meshgrid
through the L2 kernel, feature similarity from the selected metric, convex
combination with weight `weight_sp`, then `torch.max` over dim 2 (width),
mean over dim 1 (height), and mean over the remaining axes of
`-log(cx + 1e-5)`, times `loss_weight`. -/
def bilateral_CX_Loss [NeZero H] [NeZero W] (cfg : CXConfig) (weight_sp : ℝ)
    (I T : Feat N C H W) : ℝ :=
  let grid := compute_meshgrid N H W
  let cx_sp := contextual_sim (exp_distance cfg.b cfg.band_width
    (calculate_relative_distance (create_using_L2 grid grid)))
  let cx_feat := contextual_sim (exp_distance cfg.b cfg.band_width
    (calculate_relative_distance (rawDist cfg I T)))
  let cx_combine : DistT N H W :=
    fun n h w s => (1 - weight_sp) * cx_feat n h w s + weight_sp * cx_sp n h w s
  let k_max_NC : Fin N → Fin H → Fin (H * W) → ℝ :=
    fun n h s => finMax (fun w => cx_combine n h w s)
  let cx : Fin N → Fin (H * W) → ℝ :=
    fun n s => (∑ h, k_max_NC n h s) / ((H : ℕ) : ℝ)
  ((∑ n, ∑ s, -Real.log (cx n s + 1e-5)) / ((N * (H * W) : ℕ) : ℝ)) *
    cfg.loss_weight

/-- The row-normalized exponential feature similarity produced inside both
`calculate_CX_Loss` and `bilateral_CX_Loss` (named for the statements). -/
def CX_similarity [NeZero H] [NeZero W] (cfg : CXConfig)
    (I T : Feat N C H W) : DistT N H W :=
  contextual_sim (exp_distance cfg.b cfg.band_width
    (calculate_relative_distance (rawDist cfg I T)))

/-- The purely spatial similarity of `bilateral_CX_Loss`, built from the
coordinate meshgrid through the L2 kernel. -/
def spatial_CX_sim (N H W : ℕ) [NeZero H] [NeZero W] (b bw : ℝ) :
    DistT N H W :=
  contextual_sim (exp_distance b bw
    (calculate_relative_distance
      (create_using_L2 (compute_meshgrid N H W) (compute_meshgrid N H W))))

/-- The combined similarity of bilateral mode:
`(1 - weight_sp) * cx_feat + weight_sp * cx_sp`. -/
def cx_combined [NeZero H] [NeZero W] (cfg : CXConfig) (weight_sp : ℝ)
    (I T : Feat N C H W) : DistT N H W :=
  fun n h w s => (1 - weight_sp) * CX_similarity cfg I T n h w s +
    weight_sp * spatial_CX_sim N H W cfg.b cfg.band_width n h w s

/-- The aggregation that regular mode applies to its similarity tensor
(lines `max_gt_sim … CX_loss` of `calculate_CX_Loss`): per batch element,
max over height then width per target position, mean over target positions,
then the mean over batch of `-log` — with no epsilon inside the log. -/
def regular_aggregate [NeZero H] [NeZero W] (sim : DistT N H W) : ℝ :=
  (∑ n, -Real.log ((∑ s, finMax (fun w => finMax (fun h => sim n h w s))) /
    ((H * W : ℕ) : ℝ))) / ((N : ℕ) : ℝ)

/-- The aggregation that bilateral mode applies to its combined similarity:
max over the width axis only, mean over the height axis, then the mean over
batch and target positions of `-log(cx + 1e-5)`. -/
def bilateral_aggregate [NeZero H] [NeZero W] (t : DistT N H W) : ℝ :=
  (∑ n, ∑ s, -Real.log ((∑ h, finMax (fun w => t n h w s)) /
    ((H : ℕ) : ℝ) + 1e-5)) / ((N * (H * W) : ℕ) : ℝ)

/-- `ContextualLoss._random_sampling` with a supplied index set: after
`tensor.view(N, C, S)`, `torch.gather(tensor, index=indices, dim=-1)`.
The index set is the same for every batch element and channel (the source
builds it once and `expand`s it over those axes); `torch.randperm` is an
external random source, so the generated indices enter as an argument. -/
def random_sampling {S m : ℕ} (t : Fin N → Fin C → Fin S → ℝ)
    (idx : Fin m → Fin S) : Fin N → Fin C → Fin m → ℝ :=
  fun n c j => t n c (idx j)

/-- `ContextualLoss._random_pooling` on a group of equal-shaped tensors:
the index set generated against the first tensor (`idx`) is reused,
unmodified, for every tensor of the group. -/
def random_pooling {S m : ℕ} (feats : List (Fin N → Fin C → Fin S → ℝ))
    (idx : Fin m → Fin S) : List (Fin N → Fin C → Fin m → ℝ) :=
  feats.map (fun t => random_sampling t idx)

/-- One NaN/Inf check of `calculate_CX_Loss`, exactly as written in the
source: `torch.sum(torch.isnan(x)) == torch.numel(x) or
torch.sum(torch.isinf(x)) == torch.numel(x)`, over an abstract entry type
with `isnan`/`isinf` predicates (a tensor is a list of its entries). -/
def wholeNaNOrInf {V : Type} (isnan isinf : V → Bool) (xs : List V) : Bool :=
  (xs.countP isnan == xs.length) || (xs.countP isinf == xs.length)

/-- The raise condition of `calculate_CX_Loss`: the guard fires (a
`ValueError` is raised) exactly when one of the six checks on
`I_features`, `T_features`, `raw_distance`, `relative_distance`,
`exp_distance`, `contextual_sim` fires, or the final `torch.isnan(CX_loss)`
check does. -/
def cx_checks_raise {V : Type} (isnan isinf : V → Bool)
    (Ifeat Tfeat raw rel expd sim : List V) (lossNaN : Bool) : Bool :=
  wholeNaNOrInf isnan isinf Ifeat || wholeNaNOrInf isnan isinf Tfeat ||
  wholeNaNOrInf isnan isinf raw || wholeNaNOrInf isnan isinf rel ||
  wholeNaNOrInf isnan isinf expd || wholeNaNOrInf isnan isinf sim || lossNaN

/-- Removal of every underscore from a string: Python's
`s.replace("_", "")`. -/
def removeUnderscore (s : String) : String :=
  ⟨s.toList.filter (fun c => !(c == '_'))⟩

/-- Python `"_" in k[:5]`: an underscore occurs among the first five
characters. -/
def underscoreInHead (k : String) : Bool :=
  (k.take 5).toList.contains '_'

/-- The key rewrite of `alt_layers_names`:
`k[:5].replace("_", "") + k[5:]`. -/
def renameKey (k : String) : String :=
  removeUnderscore (k.take 5) ++ k.drop 5

/-- `alt_layers_names`: build a new mapping; every key with an underscore in
its first five characters is inserted under the rewritten name; every other
key is dropped. The Python dict is modelled as a partial map
`String → Option α` (assignment overwrites). -/
def alt_layers_names {α : Type} (layers : List (String × α)) :
    String → Option α :=
  layers.foldl
    (fun acc kv =>
      if underscoreInHead kv.1 then
        fun q => if q = renameKey kv.1 then some kv.2 else acc q
      else acc)
    (fun _ => none)

/-- The `layer_weights` handling of `ContextualLoss.__init__`: a non-empty
mapping is passed through `alt_layers_names`; an empty one yields the empty
mapping. -/
def init_layer_weights {α : Type} (layers : List (String × α)) :
    String → Option α :=
  if layers.isEmpty then fun _ => none else alt_layers_names layers


/-! ### Shared helper lemmas -/

/-- A constant feature map, used for concrete evaluations. -/
def cf {N C H W : ℕ} (x : ℝ) : Feat N C H W := fun _ _ _ _ => x

/-- Regular mode decomposed: the weight times the regular aggregation of the
feature similarity. -/
lemma CX_decomp [NeZero H] [NeZero W] (cfg : CXConfig) (I T : Feat N C H W) :
    calculate_CX_Loss cfg I T =
      cfg.loss_weight * regular_aggregate (CX_similarity cfg I T) := by
  simp only [calculate_CX_Loss, regular_aggregate, CX_similarity]
  ring

/-- Bilateral mode decomposed: the weight times the bilateral aggregation of
the combined similarity. -/
lemma bilateral_decomp [NeZero H] [NeZero W] (cfg : CXConfig) (weight_sp : ℝ)
    (I T : Feat N C H W) :
    bilateral_CX_Loss cfg weight_sp I T =
      cfg.loss_weight * bilateral_aggregate (cx_combined cfg weight_sp I T) := by
  simp only [bilateral_CX_Loss, bilateral_aggregate, cx_combined,
    CX_similarity, spatial_CX_sim]
  ring

/-- With `distance_type = 'l1'`, the dispatch selects the L1 kernel. -/
lemma rawDist_l1 (cfg : CXConfig) (hd : cfg.distanceType = DistType.l1)
    (I T : Feat N C H W) : rawDist cfg I T = create_using_L1 I T := by
  unfold rawDist
  rw [hd]

/-- The L1 kernel on two identical constant maps vanishes. -/
lemma create_using_L1_const (x : ℝ) (n : Fin N) (h : Fin H) (w : Fin W)
    (s : Fin (H * W)) :
    create_using_L1 (cf x : Feat N C H W) (cf x) n h w s = 0 := by
  simp [create_using_L1, Iv, cf]

/-- Relative distance of a constant tensor is the constant `k/(k + 1e-5)`. -/
lemma relative_const [NeZero H] [NeZero W] (k : ℝ) (raw : DistT N H W)
    (hr : ∀ n h w s, raw n h w s = k) :
    ∀ (n : Fin N) (h : Fin H) (w : Fin W) (s : Fin (H * W)),
      calculate_relative_distance raw n h w s = k / (k + 1e-5) := by
  intro n h w s
  simp only [calculate_relative_distance, rowMin, finMin, hr]
  rw [Finset.inf'_const]

/-- The row-normalized exponential similarity of a constant tensor is the
uniform distribution `1/(H*W)`. -/
lemma contextual_sim_exp_const (b bw c : ℝ) (d : DistT N H W)
    (hd : ∀ n h w s, d n h w s = c) (n : Fin N) (h : Fin H) (w : Fin W)
    (s : Fin (H * W)) :
    contextual_sim (exp_distance b bw d) n h w s = 1 / ((H * W : ℕ) : ℝ) := by
  have hE : Real.exp ((b - c) / bw) ≠ 0 := Real.exp_ne_zero _
  simp only [contextual_sim, exp_distance, hd]
  rw [Finset.sum_const, Finset.card_univ, Fintype.card_fin, nsmul_eq_mul,
    mul_comm, div_mul_eq_div_div, div_self hE]

/-- Regular aggregation of a constant similarity tensor is `-log c`. -/
lemma regular_aggregate_const [NeZero N] [NeZero H] [NeZero W] (c : ℝ) :
    regular_aggregate (fun _ _ _ _ => c : DistT N H W) = -Real.log c := by
  have hHW : ((H * W : ℕ) : ℝ) ≠ 0 := Nat.cast_ne_zero.mpr (NeZero.ne _)
  have hN : ((N : ℕ) : ℝ) ≠ 0 := Nat.cast_ne_zero.mpr (NeZero.ne _)
  have hsum : (∑ _s : Fin (H * W), c) = ((H * W : ℕ) : ℝ) * c := by
    rw [Finset.sum_const, Finset.card_univ, Fintype.card_fin, nsmul_eq_mul]
  have hsum2 : (∑ _n : Fin N, -Real.log c) = ((N : ℕ) : ℝ) * -Real.log c := by
    rw [Finset.sum_const, Finset.card_univ, Fintype.card_fin, nsmul_eq_mul]
  simp only [regular_aggregate, finMax, Finset.sup'_const]
  rw [hsum, mul_div_cancel_left₀ _ hHW, hsum2, mul_div_cancel_left₀ _ hN]

/-- Bilateral aggregation of a constant tensor is `-log (c + 1e-5)`. -/
lemma bilateral_aggregate_const [NeZero N] [NeZero H] [NeZero W] (c : ℝ) :
    bilateral_aggregate (fun _ _ _ _ => c : DistT N H W) =
      -Real.log (c + 1e-5) := by
  have hH : ((H : ℕ) : ℝ) ≠ 0 := Nat.cast_ne_zero.mpr (NeZero.ne _)
  have hNHW : ((N * (H * W) : ℕ) : ℝ) ≠ 0 := Nat.cast_ne_zero.mpr (NeZero.ne _)
  have hsum : (∑ _h : Fin H, c) = ((H : ℕ) : ℝ) * c := by
    rw [Finset.sum_const, Finset.card_univ, Fintype.card_fin, nsmul_eq_mul]
  have hsum2 : (∑ _n : Fin N, ∑ _s : Fin (H * W), -Real.log (c + 1e-5)) =
      ((N * (H * W) : ℕ) : ℝ) * -Real.log (c + 1e-5) := by
    rw [Finset.sum_const, Finset.sum_const, Finset.card_univ, Finset.card_univ,
      Fintype.card_fin, Fintype.card_fin, smul_smul, nsmul_eq_mul]
  simp only [bilateral_aggregate, finMax, Finset.sup'_const]
  rw [hsum, mul_div_cancel_left₀ _ hH, hsum2, mul_div_cancel_left₀ _ hNHW]

/-- The coordinate meshgrid of a `1 × 1` spatial grid is zero. -/
lemma meshgrid_one (n : Fin N) (c : Fin 2) (h w : Fin 1) :
    compute_meshgrid N 1 1 n c h w = 0 := by
  have hh : h.val = 0 := by have := h.isLt; omega
  have hw : w.val = 0 := by have := w.isLt; omega
  simp [compute_meshgrid, hh, hw]

/-- The spatial L2 distance of a `1 × 1` meshgrid with itself is zero. -/
lemma L2_grid_zero_one (n : Fin N) (h w : Fin 1) (s : Fin (1 * 1)) :
    create_using_L2 (compute_meshgrid N 1 1) (compute_meshgrid N 1 1)
      n h w s = 0 := by
  simp [create_using_L2, Iv, meshgrid_one]

/-- The spatial similarity of a `1 × 1` grid is the single value 1. -/
lemma spatial_sim_one (b bw : ℝ) (n : Fin N) (h w : Fin 1)
    (s : Fin (1 * 1)) : spatial_CX_sim N 1 1 b bw n h w s = 1 := by
  unfold spatial_CX_sim
  have h2 : ∀ (n : Fin N) (h w : Fin 1) (s : Fin (1 * 1)),
      calculate_relative_distance
        (create_using_L2 (compute_meshgrid N 1 1) (compute_meshgrid N 1 1))
        n h w s = 0 := by
    intro n h w s
    rw [relative_const 0 _ (fun n h w s => L2_grid_zero_one n h w s)]
    simp
  rw [contextual_sim_exp_const b bw 0 _ h2 n h w s]
  norm_num

/-- With the L1 metric, the feature similarity of two identical constant maps
is the uniform value `1/(H*W)`. -/
lemma CX_sim_const_l1 [NeZero H] [NeZero W] (cfg : CXConfig)
    (hd : cfg.distanceType = DistType.l1) (x : ℝ) (n : Fin N) (h : Fin H)
    (w : Fin W) (s : Fin (H * W)) :
    CX_similarity cfg (cf x : Feat N C H W) (cf x) n h w s =
      1 / ((H * W : ℕ) : ℝ) := by
  unfold CX_similarity
  have h0 : ∀ (n : Fin N) (h : Fin H) (w : Fin W) (s : Fin (H * W)),
      rawDist cfg (cf x : Feat N C H W) (cf x) n h w s = 0 := by
    intro n h w s
    rw [rawDist_l1 cfg hd]
    exact create_using_L1_const x n h w s
  have h2 : ∀ (n : Fin N) (h : Fin H) (w : Fin W) (s : Fin (H * W)),
      calculate_relative_distance
        (rawDist cfg (cf x : Feat N C H W) (cf x)) n h w s = 0 := by
    intro n h w s
    rw [relative_const 0 _ h0]
    simp
  exact contextual_sim_exp_const _ _ _ _ h2 n h w s


/-! ### Claim theorems -/

/-- C8: for every pair of equal-shaped feature maps, each of the three
distance kernels returns a tensor of shape `(N, H, W, H*W)` (the type
`DistT N H W`) that is non-negative in every entry. -/
theorem distance_kernels_nonneg (N C H W : ℕ) (I T : Feat N C H W)
    (n : Fin N) (h : Fin H) (w : Fin W) (s : Fin (H * W)) :
    0 ≤ create_using_L1 I T n h w s ∧ 0 ≤ create_using_L2 I T n h w s ∧
      0 ≤ create_using_dotP I T n h w s := by
  refine ⟨?_, ?_, ?_⟩
  · exact Finset.sum_nonneg fun c _ => abs_nonneg _
  · exact le_max_right _ 0
  · exact le_max_right _ 0

/-- The minimum of a pointwise quotient by a positive constant is the
quotient of the minimum. -/
lemma finMin_div_const {k : ℕ} [NeZero k] (f : Fin k → ℝ) (d : ℝ)
    (hd : 0 < d) : finMin (fun i => f i / d) = finMin f / d := by
  unfold finMin
  apply le_antisymm
  · obtain ⟨i0, _, hi0⟩ := Finset.exists_mem_eq_inf' Finset.univ_nonempty f
    rw [hi0]
    exact Finset.inf'_le _ (Finset.mem_univ i0)
  · apply Finset.le_inf'
    intro i _
    exact (div_le_div_iff_of_pos_right hd).mpr
      (Finset.inf'_le _ (Finset.mem_univ i))

/-- C7: relative-distance normalization divides each entry of a row by the
row's minimum plus `ε = 1e-5`; the minimum of the output row is exactly
`min/(min+ε)`, which is strictly below 1 for a non-negative row (the
distance kernels only produce non-negative rows, by
`distance_kernels_nonneg`). -/
theorem relative_distance_row_min (N H W : ℕ) [NeZero H] [NeZero W]
    (raw : DistT N H W) (n : Fin N) (h : Fin H) (w : Fin W)
    (h0 : ∀ s, 0 ≤ raw n h w s) :
    (∀ s, calculate_relative_distance raw n h w s =
      raw n h w s / (rowMin raw n h w + 1e-5)) ∧
    rowMin (calculate_relative_distance raw) n h w =
      rowMin raw n h w / (rowMin raw n h w + 1e-5) ∧
    rowMin raw n h w / (rowMin raw n h w + 1e-5) < 1 := by
  have hm0 : 0 ≤ rowMin raw n h w := by
    unfold rowMin finMin
    exact Finset.le_inf' _ _ (fun s _ => h0 s)
  have heps : (0 : ℝ) < 1e-5 := by norm_num
  have hd : 0 < rowMin raw n h w + 1e-5 := by linarith
  refine ⟨fun s => rfl, ?_, ?_⟩
  · have hrw : rowMin (calculate_relative_distance raw) n h w =
        finMin (fun s => raw n h w s / (rowMin raw n h w + 1e-5)) := rfl
    rw [hrw, finMin_div_const _ _ hd]
    rfl
  · rw [div_lt_one hd]
    linarith

/-- C6: every row-normalized exponential similarity tensor (the form
produced in both regular and bilateral modes, namely
`contextual_sim (exp_distance b bw d)` with `d` the relative distance of a
kernel output or of the spatial grid) has each value in `(0, 1]` and each
row summing to 1 across the target-position axis, for any strictly positive
band-width. -/
theorem contextual_sim_unit_row (N H W : ℕ) [NeZero H] [NeZero W]
    (b bw : ℝ) (hbw : 0 < bw) (d : DistT N H W) (n : Fin N) (h : Fin H)
    (w : Fin W) :
    (∀ s, 0 < contextual_sim (exp_distance b bw d) n h w s ∧
      contextual_sim (exp_distance b bw d) n h w s ≤ 1) ∧
    (∑ s, contextual_sim (exp_distance b bw d) n h w s) = 1 := by
  have hS : 0 < ∑ s', Real.exp ((b - d n h w s') / bw) :=
    Finset.sum_pos (fun s _ => Real.exp_pos _) Finset.univ_nonempty
  constructor
  · intro s
    constructor
    · exact div_pos (Real.exp_pos _) hS
    · have hval : contextual_sim (exp_distance b bw d) n h w s =
          Real.exp ((b - d n h w s) / bw) /
            ∑ s', Real.exp ((b - d n h w s') / bw) := rfl
      rw [hval, div_le_one hS]
      exact Finset.single_le_sum
        (f := fun s' => Real.exp ((b - d n h w s') / bw))
        (fun i _ => le_of_lt (Real.exp_pos _)) (Finset.mem_univ s)
  · calc (∑ s, contextual_sim (exp_distance b bw d) n h w s)
        = ∑ s, Real.exp ((b - d n h w s) / bw) /
            ∑ s', Real.exp ((b - d n h w s') / bw) := rfl
    _ = (∑ s, Real.exp ((b - d n h w s) / bw)) /
            ∑ s', Real.exp ((b - d n h w s') / bw) :=
      (Finset.sum_div _ _ _).symm
    _ = 1 := div_self hS.ne'

/-- C5: the guard of `calculate_CX_Loss` raises exactly when one of the six
checked tensors is entirely NaN or entirely Inf, or the final scalar loss is
NaN. In particular a tensor with only some NaN/Inf entries (so neither
universal alternative holds for it) never makes its check fire and
propagates silently. -/
theorem cx_checks_raise_iff {V : Type} (isnan isinf : V → Bool)
    (Ifeat Tfeat raw rel expd sim : List V) (lossNaN : Bool) :
    cx_checks_raise isnan isinf Ifeat Tfeat raw rel expd sim lossNaN = true ↔
      ((∀ x ∈ Ifeat, isnan x = true) ∨ (∀ x ∈ Ifeat, isinf x = true) ∨
       (∀ x ∈ Tfeat, isnan x = true) ∨ (∀ x ∈ Tfeat, isinf x = true) ∨
       (∀ x ∈ raw, isnan x = true) ∨ (∀ x ∈ raw, isinf x = true) ∨
       (∀ x ∈ rel, isnan x = true) ∨ (∀ x ∈ rel, isinf x = true) ∨
       (∀ x ∈ expd, isnan x = true) ∨ (∀ x ∈ expd, isinf x = true) ∨
       (∀ x ∈ sim, isnan x = true) ∨ (∀ x ∈ sim, isinf x = true) ∨
       lossNaN = true) := by
  simp only [cx_checks_raise, wholeNaNOrInf, Bool.or_eq_true, beq_iff_eq,
    List.countP_eq_length]
  tauto

/-- C9: `_random_pooling` reuses the index set generated against the first
tensor, unmodified, for every tensor in the group: the value at output
position `j` of the `i`-th pooled tensor is the `i`-th input tensor read at
the shared source index `idx j`. -/
theorem random_pooling_shared_indices (N C S m : ℕ)
    (feats : List (Fin N → Fin C → Fin S → ℝ)) (idx : Fin m → Fin S)
    (i : ℕ) (h1 : i < (random_pooling feats idx).length)
    (h2 : i < feats.length) (n : Fin N) (c : Fin C) (j : Fin m) :
    (random_pooling feats idx).get ⟨i, h1⟩ n c j =
      (feats.get ⟨i, h2⟩) n c (idx j) := by
  simp [random_pooling, random_sampling, List.get_eq_getElem,
    List.getElem_map]

/-- Witness for C9 at a concrete group of two distinguishable tensors. -/
theorem random_pooling_shared_indices_witness :
    (random_pooling (N := 1) (C := 1)
        [fun _ _ s => (s.val : ℝ), fun _ _ s => (s.val : ℝ) + 10]
        (fun j : Fin 2 => (⟨j.val + 2, by have := j.isLt; omega⟩ : Fin 4))).get
      ⟨1, by simp [random_pooling]⟩ 0 0 0 =
    (fun (_ : Fin 1) (_ : Fin 1) (s : Fin 4) => (s.val : ℝ) + 10) 0 0
      ⟨2, by omega⟩ := by
  exact random_pooling_shared_indices 1 1 4 2 _ _ 1
    (by simp [random_pooling]) (by simp) 0 0 0

/-- Key membership in the mapping built by `alt_layers_names`: exactly the
rewritten names of the input keys that had an underscore among their first
five characters. -/
lemma alt_keys_mem {α : Type} (layers : List (String × α)) (k' : String) :
    (alt_layers_names layers k').isSome = true ↔
      ∃ kv ∈ layers, underscoreInHead kv.1 = true ∧ k' = renameKey kv.1 := by
  suffices h : ∀ (acc : String → Option α),
      ((layers.foldl
        (fun acc kv =>
          if underscoreInHead kv.1 then
            fun q => if q = renameKey kv.1 then some kv.2 else acc q
          else acc) acc) k').isSome = true ↔
      ((acc k').isSome = true ∨
        ∃ kv ∈ layers, underscoreInHead kv.1 = true ∧ k' = renameKey kv.1) by
    have h2 := h (fun _ => none)
    simpa [alt_layers_names] using h2
  induction layers with
  | nil => intro acc; simp
  | cons kv rest ih =>
    intro acc
    simp only [List.foldl_cons]
    rw [ih]
    by_cases hu : underscoreInHead kv.1
    · by_cases hk : k' = renameKey kv.1
      · simp [hu, hk]
      · simp [hu, hk]
    · simp only [Bool.not_eq_true] at hu
      simp [hu]

/-- C10 (amended): at `ContextualLoss` construction, a non-empty
`layer_weights` mapping passes through `alt_layers_names`: the keys of the
resulting mapping are exactly the rewrites `k[:5].replace("_", "") + k[5:]`
of the input keys that have an underscore among their first five characters
(e.g. `con_32` becomes `con32`); any key without such an underscore is
silently dropped. In `conv3_2` the underscore sits at index 5, outside
`k[:5] = "conv3"`, so the default keys `conv3_2` and `conv4_2` are dropped,
not renamed (`alt_layers_drop_default_keys`). -/
theorem init_layer_weights_keys {α : Type} (layers : List (String × α))
    (hne : layers.isEmpty = false) (k' : String) :
    (init_layer_weights layers k').isSome = true ↔
      ∃ kv ∈ layers, underscoreInHead kv.1 = true ∧ k' = renameKey kv.1 := by
  simp only [init_layer_weights, hne, Bool.false_eq_true, if_false]
  exact alt_keys_mem layers k'

/-- Witness for C10 (amended) at a key whose underscore really is among the
first five characters: `con_32` is renamed to `con32` and kept (the
membership side is evaluated concretely, so the instantiated equivalence is
not vacuous). -/
theorem init_layer_weights_keys_witness :
    ([(("con_32" : String), (1 : ℕ))].isEmpty = false) ∧
    (init_layer_weights [(("con_32" : String), (1 : ℕ))] "con32").isSome
        = true ∧
    ((init_layer_weights [(("con_32" : String), (1 : ℕ))] "con32").isSome
        = true ↔
      ∃ kv ∈ [(("con_32" : String), (1 : ℕ))],
        underscoreInHead kv.1 = true ∧ "con32" = renameKey kv.1) :=
  ⟨rfl, by decide,
    init_layer_weights_keys [(("con_32" : String), (1 : ℕ))] rfl "con32"⟩

/-- Counterexample to C10 as stated: the claimed instance is false. The
underscore of `conv3_2` is its sixth character, so
`underscoreInHead "conv3_2" = false` and `alt_layers_names` drops the
constructor's default keys `conv3_2` and `conv4_2` entirely — the rebuilt
mapping holds neither `conv32`/`conv42` nor the original names, and is in
fact empty. -/
theorem alt_layers_drop_default_keys :
    underscoreInHead "conv3_2" = false ∧
    underscoreInHead "conv4_2" = false ∧
    alt_layers_names
      [(("conv3_2" : String), (1 : ℕ)), (("conv4_2" : String), (1 : ℕ))]
      "conv32" = none ∧
    alt_layers_names
      [(("conv3_2" : String), (1 : ℕ)), (("conv4_2" : String), (1 : ℕ))]
      "conv42" = none ∧
    alt_layers_names
      [(("conv3_2" : String), (1 : ℕ)), (("conv4_2" : String), (1 : ℕ))]
      "conv3_2" = none ∧
    alt_layers_names
      [(("conv3_2" : String), (1 : ℕ)), (("conv4_2" : String), (1 : ℕ))]
      "conv4_2" = none :=
  ⟨rfl, rfl, rfl, rfl, rfl, rfl⟩


/-- A constant distance tensor used by concrete witnesses. -/
def d3 : DistT 1 1 1 := fun _ _ _ _ => 3

/-- Witness for C7 at a constant non-negative row. -/
theorem relative_distance_row_min_witness :
    (∀ s, (0 : ℝ) ≤ d3 0 0 0 s) ∧
    ((∀ s, calculate_relative_distance d3 0 0 0 s =
        d3 0 0 0 s / (rowMin d3 0 0 0 + 1e-5)) ∧
      rowMin (calculate_relative_distance d3) 0 0 0 =
        rowMin d3 0 0 0 / (rowMin d3 0 0 0 + 1e-5) ∧
      rowMin d3 0 0 0 / (rowMin d3 0 0 0 + 1e-5) < 1) :=
  ⟨fun s => by norm_num [d3],
    relative_distance_row_min 1 1 1 d3 0 0 0 (fun s => by norm_num [d3])⟩

/-- Witness for C6 at the default band-width `0.5` and a concrete tensor. -/
theorem contextual_sim_unit_row_witness :
    (0 : ℝ) < 1 / 2 ∧
    ((∀ s, 0 < contextual_sim (exp_distance 1 (1 / 2) d3) 0 0 0 s ∧
        contextual_sim (exp_distance 1 (1 / 2) d3) 0 0 0 s ≤ 1) ∧
      (∑ s, contextual_sim (exp_distance 1 (1 / 2) d3) 0 0 0 s) = 1) :=
  ⟨one_half_pos, contextual_sim_unit_row 1 1 1 1 (1 / 2) one_half_pos d3 0 0 0⟩

/-- A `ContextualLoss` configuration with the default weight 1, the L1
metric, `b = 1`, `band_width = 0.5`. -/
def cfg1 : CXConfig := ⟨1, DistType.l1, 1, 1 / 2⟩

/-- A `ContextualLoss` configuration with `loss_weight = 2` and otherwise
the same fields as `cfg1`. -/
def cfg2 : CXConfig := ⟨2, DistType.l1, 1, 1 / 2⟩

/-- C1 (amended): regular-mode loss equals the loss weight times the
regular aggregation of the feature similarity: per batch element, for each
target position the maximum similarity over query positions (height, then
width), averaged over target positions, then the mean over batch of `-log`
of that average — with no epsilon inside the logarithm. -/
theorem regular_loss_formula (N C H W : ℕ) [NeZero H] [NeZero W]
    (cfg : CXConfig) (I T : Feat N C H W) :
    calculate_CX_Loss cfg I T =
      cfg.loss_weight * regular_aggregate (CX_similarity cfg I T) :=
  CX_decomp cfg I T

/-- Witness for C1 (amended) at a concrete input. -/
theorem regular_loss_formula_witness :
    calculate_CX_Loss cfg1 (cf 0 : Feat 1 1 1 1) (cf 0) =
      cfg1.loss_weight *
        regular_aggregate (CX_similarity cfg1 (cf 0 : Feat 1 1 1 1) (cf 0)) :=
  regular_loss_formula 1 1 1 1 cfg1 (cf 0) (cf 0)

/-- Counterexample to C1 as stated: for identical single-position inputs the
regular-mode loss is exactly 0, not `-log(1 + 1e-5)` times the loss weight —
`calculate_CX_Loss` takes `-log(CS)` with no epsilon. -/
theorem regular_loss_ne_claimed_log_form :
    calculate_CX_Loss cfg1 (cf 0 : Feat 1 1 1 1) (cf 0) ≠
      cfg1.loss_weight * (-Real.log (1 + 1e-5)) := by
  have hsim : CX_similarity cfg1 (cf 0 : Feat 1 1 1 1) (cf 0) =
      (fun _ _ _ _ => (1 : ℝ)) := by
    funext n h w s
    rw [CX_sim_const_l1 cfg1 rfl 0 n h w s]
    norm_num
  have h1 : calculate_CX_Loss cfg1 (cf 0 : Feat 1 1 1 1) (cf 0) = 0 := by
    rw [CX_decomp, hsim, regular_aggregate_const]
    simp [cfg1, Real.log_one]
  rw [h1]
  intro heq
  simp [cfg1] at heq
  norm_num at heq

/-- C2 (amended): symmetric mode returns the loss weight times the average
of the two regular-mode losses; since `calculate_CX_Loss` itself already
multiplies by the loss weight, the weight is applied twice overall. -/
theorem symetric_eq_weight_mul_average (N C H W : ℕ) [NeZero H] [NeZero W]
    (cfg : CXConfig) (I T : Feat N C H W) :
    symetric_CX_Loss cfg I T =
      cfg.loss_weight *
        ((calculate_CX_Loss cfg T I + calculate_CX_Loss cfg I T) / 2) := by
  unfold symetric_CX_Loss
  ring

/-- Witness for C2 (amended) at a concrete input. -/
theorem symetric_eq_weight_mul_average_witness :
    symetric_CX_Loss cfg2 (cf 0 : Feat 1 1 2 1) (cf 0) =
      cfg2.loss_weight *
        ((calculate_CX_Loss cfg2 (cf 0 : Feat 1 1 2 1) (cf 0) +
          calculate_CX_Loss cfg2 (cf 0 : Feat 1 1 2 1) (cf 0)) / 2) :=
  symetric_eq_weight_mul_average 1 1 2 1 cfg2 (cf 0) (cf 0)

/-- Counterexample to C2 as stated: with `loss_weight = 2` and identical
constant inputs on a `2 × 1` grid, `symetric_CX_Loss` returns twice the
average of the two regular-mode losses, not the average itself. -/
theorem symetric_ne_plain_average :
    symetric_CX_Loss cfg2 (cf 0 : Feat 1 1 2 1) (cf 0) ≠
      (calculate_CX_Loss cfg2 (cf 0 : Feat 1 1 2 1) (cf 0) +
        calculate_CX_Loss cfg2 (cf 0 : Feat 1 1 2 1) (cf 0)) / 2 := by
  have hsim : CX_similarity cfg2 (cf 0 : Feat 1 1 2 1) (cf 0) =
      (fun _ _ _ _ => (1 / 2 : ℝ)) := by
    funext n h w s
    rw [CX_sim_const_l1 cfg2 rfl 0 n h w s]
    norm_num
  have hL : calculate_CX_Loss cfg2 (cf 0 : Feat 1 1 2 1) (cf 0) =
      2 * -Real.log (1 / 2) := by
    rw [CX_decomp, hsim, regular_aggregate_const]
    simp [cfg2]
  have hlog : Real.log (1 / 2) ≠ 0 := by
    intro h
    rw [Real.log_eq_zero] at h
    norm_num at h
  unfold symetric_CX_Loss
  rw [hL]
  intro heq
  simp only [cfg2] at heq
  apply hlog
  linarith

/-- C4 (amended): bilateral mode forms the convex combination
`(1 - weight_sp) * cx_feat + weight_sp * cx_sp` and then applies its own
aggregation — max over the width axis, mean over the height axis, then the
mean over batch and target positions of `-log(cx + 1e-5)` — times the loss
weight. -/
theorem bilateral_loss_formula (N C H W : ℕ) [NeZero H] [NeZero W]
    (cfg : CXConfig) (weight_sp : ℝ) (I T : Feat N C H W) :
    bilateral_CX_Loss cfg weight_sp I T =
      cfg.loss_weight * bilateral_aggregate (cx_combined cfg weight_sp I T) :=
  bilateral_decomp cfg weight_sp I T

/-- Witness for C4 (amended) at a concrete input and the default spatial
weight `0.1`. -/
theorem bilateral_loss_formula_witness :
    bilateral_CX_Loss cfg1 (1 / 10) (cf 0 : Feat 1 1 1 1) (cf 0) =
      cfg1.loss_weight *
        bilateral_aggregate (cx_combined cfg1 (1 / 10) (cf 0 : Feat 1 1 1 1)
          (cf 0)) :=
  bilateral_loss_formula 1 1 1 1 cfg1 (1 / 10) (cf 0) (cf 0)

/-- Counterexample to C4 as stated: bilateral mode does not apply the
regular-mode aggregation to the combined similarity — on identical
single-position inputs the combined similarity is the constant 1, regular
aggregation of it gives 0, but `bilateral_CX_Loss` returns
`-log(1 + 1e-5) ≠ 0`. -/
theorem bilateral_ne_regular_aggregate :
    bilateral_CX_Loss cfg1 (1 / 10) (cf 0 : Feat 1 1 1 1) (cf 0) ≠
      cfg1.loss_weight *
        regular_aggregate (cx_combined cfg1 (1 / 10) (cf 0 : Feat 1 1 1 1)
          (cf 0)) := by
  have hcomb : cx_combined cfg1 (1 / 10) (cf 0 : Feat 1 1 1 1) (cf 0) =
      (fun _ _ _ _ => (1 : ℝ)) := by
    funext n h w s
    unfold cx_combined
    rw [CX_sim_const_l1 cfg1 rfl 0 n h w s, spatial_sim_one]
    norm_num
  have hlhs : bilateral_CX_Loss cfg1 (1 / 10) (cf 0 : Feat 1 1 1 1) (cf 0) =
      -Real.log (1 + 1e-5) := by
    rw [bilateral_decomp, hcomb, bilateral_aggregate_const]
    simp [cfg1]
  have hrhs : cfg1.loss_weight *
      regular_aggregate (cx_combined cfg1 (1 / 10) (cf 0 : Feat 1 1 1 1)
        (cf 0)) = 0 := by
    rw [hcomb, regular_aggregate_const]
    simp [cfg1, Real.log_one]
  rw [hlhs, hrhs]
  intro heq
  have h0 : Real.log (1 + 1e-5) = 0 := by linarith
  rw [Real.log_eq_zero] at h0
  norm_num at h0


/-- C3 (amended): the L1 and L2 kernels are per-batch independent — slice
`i` of the output depends only on slice `i` of the two inputs. The cosine
kernel's slice `i` depends only on slice `i` of the query input and on the
whole target tensor (its channel-wise mean is taken over the full batch),
so it is unchanged when the full target tensor is unchanged. -/
theorem distance_slice_batch_dependence (N C H W : ℕ)
    (I I' T T' : Feat N C H W) (i : Fin N)
    (hI : ∀ c h w, I i c h w = I' i c h w)
    (hT : ∀ c h w, T i c h w = T' i c h w) :
    (∀ h w s, create_using_L1 I T i h w s = create_using_L1 I' T' i h w s) ∧
    (∀ h w s, create_using_L2 I T i h w s = create_using_L2 I' T' i h w s) ∧
    (T' = T →
      ∀ h w s, create_using_dotP I T i h w s =
        create_using_dotP I' T' i h w s) := by
  refine ⟨?_, ?_, ?_⟩
  · intro h w s
    simp only [create_using_L1, Iv, hI, hT]
  · intro h w s
    simp only [create_using_L2, Iv, hI, hT]
  · rintro rfl h w s
    simp only [create_using_dotP, Iv]
    simp only [hI]

/-- Witness for C3 (amended) at a concrete input. -/
theorem distance_slice_batch_dependence_witness :
    (∀ h w s, create_using_L1 (cf 0 : Feat 1 1 1 1) (cf 0) 0 h w s =
      create_using_L1 (cf 0 : Feat 1 1 1 1) (cf 0) 0 h w s) ∧
    (∀ h w s, create_using_L2 (cf 0 : Feat 1 1 1 1) (cf 0) 0 h w s =
      create_using_L2 (cf 0 : Feat 1 1 1 1) (cf 0) 0 h w s) ∧
    ((cf 0 : Feat 1 1 1 1) = cf 0 →
      ∀ h w s, create_using_dotP (cf 0 : Feat 1 1 1 1) (cf 0) 0 h w s =
        create_using_dotP (cf 0 : Feat 1 1 1 1) (cf 0) 0 h w s) :=
  distance_slice_batch_dependence 1 1 1 1 (cf 0) (cf 0) (cf 0) (cf 0) 0
    (fun _ _ _ => rfl) (fun _ _ _ => rfl)

/-- Query features for the cosine cross-batch counterexample: constant 1. -/
def Iex : Feat 2 1 1 1 := fun _ _ _ _ => 1

/-- Target features, first run: constant 0. -/
def Tex : Feat 2 1 1 1 := fun _ _ _ _ => 0

/-- Target features, second run: batch element 0 unchanged (still 0), batch
element 1 changed from 0 to 4. -/
def Tex' : Feat 2 1 1 1 := fun n _ _ _ => if n.val = 0 then 0 else 4

/-- Counterexample to C3 as stated: the cosine kernel leaks across the
batch. `Tex` and `Tex'` agree on batch element 0 (and the query `Iex` is
unchanged), yet slice 0 of the cosine distance changes from `1/2` to `0`
when batch element 1 of the target moves from 0 to 4, because the
mean-centering uses the channel mean of the target over the whole batch. -/
theorem dotP_cross_batch_leak :
    Tex 0 0 0 0 = Tex' 0 0 0 0 ∧
    create_using_dotP Iex Tex 0 0 0 ⟨0, by norm_num⟩ ≠
      create_using_dotP Iex Tex' 0 0 0 ⟨0, by norm_num⟩ := by
  have h4 : Real.sqrt 4 = 2 := by
    rw [show (4 : ℝ) = 2 ^ 2 by norm_num]
    exact Real.sqrt_sq (by norm_num)
  have e1 : create_using_dotP Iex Tex 0 0 0 ⟨0, by norm_num⟩ = 1 / 2 := by
    simp only [create_using_dotP, Iv, Iex, Tex]
    norm_num [Fin.sum_univ_two, Fin.sum_univ_one, Real.sqrt_one,
      Real.sqrt_zero, max_def]
  have e2 : create_using_dotP Iex Tex' 0 0 0 ⟨0, by norm_num⟩ = 0 := by
    simp only [create_using_dotP, Iv, Iex, Tex']
    norm_num [Fin.sum_univ_two, Fin.sum_univ_one, Fin.val_zero, Fin.val_one,
      Real.sqrt_one, Real.sqrt_zero, max_def, h4]
  refine ⟨rfl, ?_⟩
  rw [e1, e2]
  norm_num

end
